import Mathlib

/-!
# CircularBuffer

A shallow embedding of the class template `CircularBuffer<T, N>` of
`src/CircularBuffer.cpp`, followed by theorems about it.

Modelling conventions.

* `std::array<T, N> buffer` is a list of exactly `N` slots; the length is a
  field of the state, so every state of the model has `N` slots, as every
  object of the class has.  The constructor leaves the slots uninitialised, so
  `construct` takes their initial contents as an argument.
* `std::size_t` cursors are natural numbers.  On every state with
  `head < N` and `tail < N` no expression of the source exceeds `N`
  (`CircularBuffer.index_arith_bounded`), so unsigned wrap-around plays no role.
* An `assert` that fails ends the call before any assignment is made: the call
  returns `Except.error` together with the state it was entered in.  The model
  is that of a build with assertions enabled, which is what the test function
  of the source relies on.
* An access `buffer[i]` with `i ≥ N` is undefined behaviour in the source; the
  model makes it an explicit error, `Error.outOfBounds`.
* `average` is written over a type `D` with the operations the source uses on
  `double` (`0.0`, `+=`, `/` and the conversions to `double`).  `Double` is the
  arithmetic of `double` itself, every operation rounded to the nearest value,
  ties to even; `averageDouble` is `average` in that arithmetic.  `averageInt`
  reads `D` as the rationals, which agrees with `double` only where every
  intermediate value is exact, as for the values of the test function.
-/

/-! ## The type `double` -/

/-- A value of the type `double` (IEEE 754 binary64): a finite value `mant * 2 ^ exp`, or a
value that is not finite (an infinity or a NaN).  The exponent is not bounded and a zero
has no sign: `average()` on a buffer of `int` only meets magnitudes between `2 ^ (-64)` and
`2 ^ 96`, far inside the range of the normal values. -/
inductive Double where
  | finite (mant : Int) (exp : Int)
  | notFinite
  deriving DecidableEq

namespace Double

/-- Number of halvings that bring `n` below 2, at most `fuel` of them. -/
def log2Fuel : Nat → Nat → Nat
  | 0, _ => 0
  | fuel + 1, n => if 2 ≤ n then log2Fuel fuel (n / 2) + 1 else 0

/-- Floor of the binary logarithm of `n`, for `n ≥ 1`. -/
def log2 (n : Nat) : Nat :=
  log2Fuel n n

/-- The quotient `a / (d * 2 ^ e)` as a fraction of natural numbers. -/
def scale (a d : Nat) (e : Int) : Nat × Nat :=
  if 0 ≤ e then (a, d * 2 ^ e.toNat) else (a * 2 ^ (-e).toNat, d)

/-- The natural number nearest to `p / q`, the even one of the two when they are equally
near. -/
def nearestEven (p q : Nat) : Nat :=
  if 2 * (p % q) < q then p / q
  else if q < 2 * (p % q) then p / q + 1
  else if (p / q) % 2 = 0 then p / q
  else p / q + 1

/-- The `double` nearest to `a / d`, negated when `negative`: the exponent `e` is the one
with `2 ^ 52 ≤ a / (d * 2 ^ e) < 2 ^ 53`, so that the significand has 53 bits, and the
significand is `a / (d * 2 ^ e)` rounded to the nearest integer, ties to even; a
significand rounded up to `2 ^ 53` is written `2 ^ 52` with the next exponent. -/
def round (negative : Bool) (a d : Nat) : Double :=
  if a = 0 then finite 0 0
  else
    let e0 : Int := (log2 a : Int) - (log2 d : Int) - 52
    let e : Int := if 2 ^ 52 ≤ (scale a d e0).1 / (scale a d e0).2 then e0 else e0 - 1
    let m : Nat := nearestEven (scale a d e).1 (scale a d e).2
    let m1 : Nat := if m = 2 ^ 53 then 2 ^ 52 else m
    let e1 : Int := if m = 2 ^ 53 then e + 1 else e
    finite (if negative then -(m1 : Int) else (m1 : Int)) e1

/-- Conversion of an integer to `double`. -/
def ofInt (x : Int) : Double :=
  round (decide (x < 0)) x.natAbs 1

/-- Conversion of a `std::size_t` to `double`. -/
def ofNat (n : Nat) : Double :=
  round false n 1

/-- Addition of `double`: the exact sum, rounded. -/
def add : Double → Double → Double
  | finite m1 e1, finite m2 e2 =>
    let e := min e1 e2
    let sum : Int := m1 * 2 ^ (e1 - e).toNat + m2 * 2 ^ (e2 - e).toNat
    round (decide (sum < 0)) (scale sum.natAbs 1 (-e)).1 (scale sum.natAbs 1 (-e)).2
  | _, _ => notFinite

/-- Division of `double`: the exact quotient, rounded; not finite when the divisor is
zero. -/
def div : Double → Double → Double
  | finite m1 e1, finite m2 e2 =>
    if m2 = 0 then notFinite
    else round (decide (m1 < 0) != decide (m2 < 0))
      (scale m1.natAbs m2.natAbs (e2 - e1)).1 (scale m1.natAbs m2.natAbs (e2 - e1)).2
  | _, _ => notFinite

instance : Zero Double := ⟨finite 0 0⟩

instance : Add Double := ⟨add⟩

instance : Div Double := ⟨div⟩

/-- The rational number a finite `double` stands for. -/
def value : Double → Option ℚ
  | finite m e => some ((m : ℚ) * (2 : ℚ) ^ e)
  | notFinite => none

end Double

namespace CircularBuffer

/-- Ways a call can end abnormally. -/
inductive Error where
  /-- The assertion of `read()` failed: "Buffer underflow". -/
  | underflow
  /-- The assertion of `average()` failed: "Cannot compute average of an empty buffer". -/
  | emptyBuffer
  /-- A storage access with an index that is not below `N`. -/
  | outOfBounds
  deriving DecidableEq

end CircularBuffer

/-- The private members of `CircularBuffer<T, N>`. -/
@[ext]
structure CircularBuffer (T : Type) (N : Nat) where
  /-- Member `std::array<T, N> buffer`, slot `i` at position `i`. -/
  buffer : List T
  /-- A `std::array<T, N>` has exactly `N` slots. -/
  buffer_len : buffer.length = N
  /-- Member `std::size_t head`. -/
  head : Nat
  /-- Member `std::size_t tail`. -/
  tail : Nat
  /-- Member `bool full`. -/
  full : Bool

namespace CircularBuffer

variable {T : Type} {N : Nat}

/-- Constructor `CircularBuffer() : head(0), tail(0), full(false) {}`; `init` is the
indeterminate initial content of the storage. -/
def construct (init : List T) (h : init.length = N) : CircularBuffer T N :=
  { buffer := init, buffer_len := h, head := 0, tail := 0, full := false }

/-- Method `void clear()`. -/
def clear (s : CircularBuffer T N) : CircularBuffer T N :=
  { s with head := 0, tail := 0, full := false }

/-- Method `void write(const T& value)`. -/
def write (s : CircularBuffer T N) (value : T) : Except Error Unit × CircularBuffer T N :=
  if s.head < N then
    -- buffer[head] = value;
    let s1 : CircularBuffer T N :=
      { s with buffer := s.buffer.set s.head value,
               buffer_len := by rw [List.length_set]; exact s.buffer_len }
    -- if (full) { tail = (tail + 1) % N; }
    let s2 : CircularBuffer T N :=
      if s1.full then { s1 with tail := (s1.tail + 1) % N } else s1
    -- head = (head + 1) % N;
    let s3 : CircularBuffer T N := { s2 with head := (s2.head + 1) % N }
    -- full = (head == tail);
    (Except.ok (), { s3 with full := s3.head == s3.tail })
  else
    (Except.error Error.outOfBounds, s)

/-- Method `std::size_t size() const`. -/
def size (s : CircularBuffer T N) : Nat :=
  if s.full then N
  else if s.head ≥ s.tail then s.head - s.tail
  else N - s.tail + s.head

/-- Method `bool isFull() const`. -/
def isFull (s : CircularBuffer T N) : Bool :=
  s.full

/-- Method `bool isEmpty() const`. -/
def isEmpty (s : CircularBuffer T N) : Bool :=
  !s.full && (s.head == s.tail)

/-- Method `T read()`. -/
def read (s : CircularBuffer T N) : Except Error T × CircularBuffer T N :=
  -- assert(!isEmpty() && "Buffer underflow: ...");
  if s.isEmpty then (Except.error Error.underflow, s)
  else
    -- T value = buffer[tail];
    match s.buffer[s.tail]? with
    | none => (Except.error Error.outOfBounds, s)
    | some value =>
      -- tail = (tail + 1) % N; full = false; return value;
      (Except.ok value, { s with tail := (s.tail + 1) % N, full := false })

/-- The loop of `average()`: `for (i = 0; i < count; ++i) { sum += buffer[idx];
idx = (idx + 1) % N; }`, with `count` the number of iterations still to run. -/
def averageLoop {D : Type} [Add D] (toDouble : T → D) (buffer : List T) (N : Nat) :
    (count : Nat) → (idx : Nat) → (sum : D) → Except Error D
  | 0, _, sum => Except.ok sum
  | count + 1, idx, sum =>
    match buffer[idx]? with
    | none => Except.error Error.outOfBounds
    | some x => averageLoop toDouble buffer N count ((idx + 1) % N) (sum + toDouble x)

/-- Method `double average() const`.  `toDouble` is the conversion of an element to
`double`, `ofSize` the conversion of a `std::size_t` to `double`. -/
def average {D : Type} [Zero D] [Add D] [Div D] (toDouble : T → D) (ofSize : Nat → D)
    (s : CircularBuffer T N) : Except Error D :=
  -- assert(!isEmpty() && "Cannot compute average of an empty buffer.");
  if s.isEmpty then Except.error Error.emptyBuffer
  else
    -- double sum = 0.0; std::size_t idx = tail; std::size_t count = size();
    match averageLoop toDouble s.buffer N s.size s.tail 0 with
    | Except.error e => Except.error e
    | Except.ok sum =>
      -- double avg = sum / count;
      Except.ok (sum / ofSize s.size)

/-- Method `average()` on a buffer of integers, with `double` read as the rationals: the
result of the source wherever the sum and the quotient are exact in `double`. -/
def averageInt (s : CircularBuffer Int N) : Except Error ℚ :=
  average (fun x : Int => (x : ℚ)) (fun n : Nat => (n : ℚ)) s

/-- Method `average()` on a buffer of `int`, in the arithmetic of `double`. -/
def averageDouble (s : CircularBuffer Int N) : Except Error Double :=
  average Double.ofInt Double.ofNat s

/-- The traversal shared by `average()` and `operator<<`: `count` slots starting at
`idx`, each step `idx = (idx + 1) % N`; `none` when a slot index is not below `N`. -/
def slots (buffer : List T) (N : Nat) : (count : Nat) → (idx : Nat) → Option (List T)
  | 0, _ => some []
  | count + 1, idx =>
    match buffer[idx]? with
    | none => none
    | some x => (slots buffer N count ((idx + 1) % N)).map (fun xs => x :: xs)

/-- The logical sequence: `size()` elements read from index `tail`, wrapping modulo `N`,
oldest first. -/
def logical (s : CircularBuffer T N) : Option (List T) :=
  slots s.buffer N s.size s.tail

/-- The loop of `operator<<`: `for (i = 0; i < count; ++i) { os << cb.buffer[idx] << " ";
idx = (idx + 1) % N; }`, with `count` the number of iterations still to run, `out` the
text inserted so far and `fmt` the stream insertion of one element. -/
def renderLoop (fmt : T → String) (buffer : List T) (N : Nat) :
    (count : Nat) → (idx : Nat) → (out : String) → Except Error String
  | 0, _, out => Except.ok out
  | count + 1, idx, out =>
    match buffer[idx]? with
    | none => Except.error Error.outOfBounds
    | some x => renderLoop fmt buffer N count ((idx + 1) % N) (out ++ fmt x ++ " ")

/-- Friend `operator<<(std::ostream& os, const CircularBuffer& cb)`: the text inserted
into the stream. -/
def render (fmt : T → String) (s : CircularBuffer T N) : Except Error String :=
  if s.isEmpty then Except.ok "Buffer is empty"
  else
    -- std::size_t idx = cb.tail; std::size_t count = cb.size();
    renderLoop fmt s.buffer N s.size s.tail ""

/-- Value of `idx` when the loop of `average()` or of `operator<<` ends: `count` times
`idx = (idx + 1) % N`. -/
def loopIndex (N : Nat) : (count : Nat) → (idx : Nat) → Nat
  | 0, idx => idx
  | count + 1, idx => loopIndex N count ((idx + 1) % N)

/-- Stream insertion of an `int`. -/
def fmtInt (x : Int) : String :=
  toString x

/-- A call made on the buffer.  `query` stands for any of the `const` members
(`size`, `isFull`, `isEmpty`, `average`, `operator<<`), which cannot assign to a member. -/
inductive Op (T : Type) where
  | write (value : T)
  | read
  | clear
  | query

/-- State of the buffer after one call. -/
def step (s : CircularBuffer T N) : Op T → CircularBuffer T N
  | Op.write value => (s.write value).2
  | Op.read => s.read.2
  | Op.clear => s.clear
  | Op.query => s

/-- State of the buffer after a sequence of calls, first call first. -/
def run (s : CircularBuffer T N) (ops : List (Op T)) : CircularBuffer T N :=
  ops.foldl step s

/-- States reachable from a newly constructed buffer. -/
def Reachable (s : CircularBuffer T N) : Prop :=
  ∃ (init : List T) (h : init.length = N) (ops : List (Op T)), run (construct init h) ops = s

/-- Calls `write` with each value of `values` in order. -/
def writeAll (s : CircularBuffer T N) (values : List T) : CircularBuffer T N :=
  values.foldl (fun st v => (st.write v).2) s

/-- Calls `read()` `k` times; the outcomes in call order, and the final state. -/
def readMany : (k : Nat) → CircularBuffer T N → List (Except Error T) × CircularBuffer T N
  | 0, s => ([], s)
  | k + 1, s =>
    let r := s.read
    let rest := readMany k r.2
    (r.1 :: rest.1, rest.2)

/-- A capacity-5 buffer of integers as declared by `CircularBuffer<int, 5> cb`, its
storage holding zeros. -/
def cb5 : CircularBuffer Int 5 :=
  construct [0, 0, 0, 0, 0] rfl

/-- A capacity-4 buffer emptied by reads, so that its cursors meet at index 2. -/
def drained4 : CircularBuffer Int 4 :=
  run (construct [0, 0, 0, 0] rfl) [Op.write 1, Op.write 2, Op.read, Op.read]

/-- Cursor invariant: both cursors index a slot, and `full` is set only when they meet. -/
def Inv (s : CircularBuffer T N) : Prop :=
  s.head < N ∧ s.tail < N ∧ (s.full = true → s.head = s.tail)

/-! ## Index arithmetic -/

theorem add_mod_cases (t k N : Nat) (ht : t < N) (hk : k ≤ N) :
    (t + k) % N = if t + k < N then t + k else t + k - N := by
  split
  · rename_i h
    exact Nat.mod_eq_of_lt h
  · rename_i h
    rw [Nat.mod_eq_sub_mod (by omega)]
    exact Nat.mod_eq_of_lt (by omega)

theorem succ_mod_lt (t N : Nat) (hN : 0 < N) : (t + 1) % N < N :=
  Nat.mod_lt _ hN

theorem succ_mod_add (t i N : Nat) : ((t + 1) % N + i) % N = (t + (i + 1)) % N := by
  rw [Nat.mod_add_mod]
  congr 1
  omega

/-! ## The traversal -/

theorem slots_eq_some_iff (b : List T) (N : Nat) :
    ∀ (count idx : Nat) (xs : List T), idx < N →
      (slots b N count idx = some xs ↔
        xs.length = count ∧ ∀ i, i < count → b[(idx + i) % N]? = xs[i]?) := by
  intro count
  induction count with
  | zero =>
    intro idx xs _
    simp only [slots, Option.some.injEq]
    constructor
    · intro h
      subst h
      simp
    · rintro ⟨h, _⟩
      exact (List.length_eq_zero.mp h).symm
  | succ n ih =>
    intro idx xs hidx
    have hN : 0 < N := by omega
    have hmod : idx % N = idx := Nat.mod_eq_of_lt hidx
    cases xs with
    | nil =>
      constructor
      · intro h
        simp only [slots] at h
        cases hb : b[idx]? with
        | none => rw [hb] at h; simp at h
        | some x => rw [hb] at h; simp at h
      · rintro ⟨h, _⟩
        simp at h
    | cons y ys =>
      simp only [slots]
      cases hb : b[idx]? with
      | none =>
        constructor
        · intro h
          simp at h
        · rintro ⟨_, h⟩
          have h0 := h 0 (by omega)
          simp only [Nat.add_zero, hmod, hb] at h0
          simp at h0
      | some x =>
        simp only [Option.map_eq_some', List.cons.injEq]
        constructor
        · rintro ⟨zs, hz, hx, rfl⟩
          have := (ih ((idx + 1) % N) zs (succ_mod_lt idx N hN)).mp hz
          refine ⟨by simp [this.1], ?_⟩
          intro i hi
          cases i with
          | zero => simp [hmod, hb, hx]
          | succ j =>
            rw [List.getElem?_cons_succ, ← this.2 j (by omega), succ_mod_add]
        · rintro ⟨hlen, h⟩
          refine ⟨ys, ?_, ?_, rfl⟩
          · apply (ih ((idx + 1) % N) ys (succ_mod_lt idx N hN)).mpr
            refine ⟨by simpa using hlen, ?_⟩
            intro i hi
            have := h (i + 1) (by omega)
            rw [List.getElem?_cons_succ] at this
            rw [succ_mod_add]
            exact this
          · have h0 := h 0 (by omega)
            simp only [Nat.add_zero, hmod, hb] at h0
            simpa using h0

theorem slots_isSome (b : List T) (N : Nat) (hb : b.length = N) :
    ∀ (count idx : Nat), idx < N → ∃ xs, slots b N count idx = some xs := by
  intro count
  induction count with
  | zero => intro idx _; exact ⟨[], rfl⟩
  | succ n ih =>
    intro idx hidx
    obtain ⟨ys, hys⟩ := ih ((idx + 1) % N) (succ_mod_lt idx N (by omega))
    refine ⟨b[idx] :: ys, ?_⟩
    simp only [slots]
    rw [List.getElem?_eq_getElem (by omega), hys]
    rfl

/-! ## The cursor invariant -/

theorem index_arith_bounded (s : CircularBuffer T N) (h : Inv s) :
    s.head + 1 ≤ N ∧ s.tail + 1 ≤ N ∧ (s.head < s.tail → s.tail ≤ N ∧ N - s.tail + s.head < N) := by
  obtain ⟨h1, h2, _⟩ := h
  omega

theorem inv_construct (init : List T) (h : init.length = N) (hN : 0 < N) :
    Inv (construct init h) := by
  simp [Inv, construct, hN]

theorem inv_clear (s : CircularBuffer T N) (hN : 0 < N) : Inv s.clear := by
  simp [Inv, clear, hN]

theorem write_eq (s : CircularBuffer T N) (v : T) (h : s.head < N) :
    s.write v = (Except.ok (),
      { buffer := s.buffer.set s.head v
        buffer_len := by rw [List.length_set]; exact s.buffer_len
        head := (s.head + 1) % N
        tail := if s.full then (s.tail + 1) % N else s.tail
        full := (s.head + 1) % N == (if s.full then (s.tail + 1) % N else s.tail) }) := by
  unfold write
  rw [if_pos h]
  cases hf : s.full <;> simp [hf]

theorem read_eq (s : CircularBuffer T N) (he : s.isEmpty = false) (h : s.tail < N) :
    s.read = (Except.ok (s.buffer.get ⟨s.tail, by rw [s.buffer_len]; exact h⟩),
      { s with tail := (s.tail + 1) % N, full := false }) := by
  unfold read
  rw [he]
  simp only [Bool.false_eq_true, if_false]
  rw [List.getElem?_eq_getElem (by rw [s.buffer_len]; exact h)]
  rfl

theorem read_empty (s : CircularBuffer T N) (he : s.isEmpty = true) :
    s.read = (Except.error Error.underflow, s) := by
  unfold read
  rw [he]
  simp

theorem inv_write (s : CircularBuffer T N) (v : T) (h : Inv s) : Inv (s.write v).2 := by
  obtain ⟨h1, h2, h3⟩ := h
  have hN : 0 < N := by omega
  rw [write_eq s v h1]
  refine ⟨Nat.mod_lt _ hN, ?_, ?_⟩
  · show (if s.full then (s.tail + 1) % N else s.tail) < N
    split
    · exact Nat.mod_lt _ hN
    · exact h2
  · intro hf
    simpa using hf

theorem inv_read (s : CircularBuffer T N) (h : Inv s) : Inv s.read.2 := by
  obtain ⟨h1, h2, h3⟩ := h
  have hN : 0 < N := by omega
  cases he : s.isEmpty with
  | true => rw [read_empty s he]; exact ⟨h1, h2, h3⟩
  | false =>
    rw [read_eq s he h2]
    exact ⟨h1, Nat.mod_lt _ hN, by simp⟩

theorem inv_step (s : CircularBuffer T N) (op : Op T) (h : Inv s) : Inv (step s op) := by
  cases op with
  | write v => exact inv_write s v h
  | read => exact inv_read s h
  | clear => exact inv_clear s (by obtain ⟨h1, _⟩ := h; omega)
  | query => exact h

theorem inv_run (ops : List (Op T)) : ∀ s : CircularBuffer T N, Inv s → Inv (run s ops) := by
  induction ops with
  | nil => intro s h; exact h
  | cons op rest ih =>
    intro s h
    exact ih (step s op) (inv_step s op h)

theorem Reachable.inv {s : CircularBuffer T N} (hN : 0 < N) (h : Reachable s) : Inv s := by
  obtain ⟨init, hl, ops, rfl⟩ := h
  exact inv_run ops _ (inv_construct init hl hN)

/-! ## Size and cursors -/

theorem add_mod_ne_self (t k N : Nat) (ht : t < N) (hk0 : 0 < k) (hk : k < N) :
    (t + k) % N ≠ t := by
  rw [add_mod_cases t k N ht (by omega)]
  split <;> omega

theorem add_mod_self (t N : Nat) (ht : t < N) : (t + N) % N = t := by
  rw [Nat.add_mod_right]
  exact Nat.mod_eq_of_lt ht

theorem size_le (s : CircularBuffer T N) (h : Inv s) : s.size ≤ N := by
  obtain ⟨h1, h2, _⟩ := h
  unfold size
  split
  · exact Nat.le_refl N
  · split <;> omega

theorem size_of_full (s : CircularBuffer T N) (hf : s.full = true) : s.size = N := by
  simp [size, hf]

theorem size_lt_of_not_full (s : CircularBuffer T N) (h : Inv s) (hf : s.full = false) :
    s.size < N := by
  obtain ⟨h1, h2, _⟩ := h
  unfold size
  rw [hf]
  simp only [Bool.false_eq_true, if_false]
  split <;> omega

theorem full_iff_size (s : CircularBuffer T N) (h : Inv s) : s.full = true ↔ s.size = N := by
  constructor
  · exact size_of_full s
  · intro hs
    cases hf : s.full with
    | true => rfl
    | false =>
      have := size_lt_of_not_full s h hf
      omega

theorem isEmpty_iff_size (s : CircularBuffer T N) (h : Inv s) :
    s.isEmpty = true ↔ s.size = 0 := by
  obtain ⟨h1, h2, h3⟩ := h
  unfold isEmpty size
  cases hf : s.full with
  | true =>
    simp only [Bool.not_true, Bool.false_and, Bool.false_eq_true, if_true, false_iff]
    omega
  | false =>
    simp only [Bool.not_false, Bool.true_and, beq_iff_eq, Bool.false_eq_true, if_false]
    split <;> omega

theorem tail_add_size (s : CircularBuffer T N) (h : Inv s) :
    (s.tail + s.size) % N = s.head := by
  obtain ⟨h1, h2, h3⟩ := h
  cases hf : s.full with
  | true =>
    rw [size_of_full s hf, add_mod_self _ _ h2]
    exact (h3 hf).symm
  | false =>
    have hsz : s.size = if s.head ≥ s.tail then s.head - s.tail else N - s.tail + s.head := by
      simp [size, hf]
    rw [add_mod_cases _ _ _ h2 (size_le s ⟨h1, h2, h3⟩), hsz]
    split <;> split <;> omega

theorem tail_add_ne_head (s : CircularBuffer T N) (h : Inv s) (hf : s.full = false)
    (i : Nat) (hi : i < s.size) : (s.tail + i) % N ≠ s.head := by
  obtain ⟨h1, h2, h3⟩ := h
  have hsz : s.size = if s.head ≥ s.tail then s.head - s.tail else N - s.tail + s.head := by
    simp [size, hf]
  have hle := size_le s ⟨h1, h2, h3⟩
  rw [add_mod_cases _ _ _ h2 (by omega)]
  rw [hsz] at hi
  split at hi <;> split <;> omega

theorem size_write_not_full (s : CircularBuffer T N) (v : T) (h : Inv s)
    (hf : s.full = false) : (s.write v).2.size = s.size + 1 := by
  obtain ⟨h1, h2, h3⟩ := h
  rw [write_eq s v h1]
  simp only [size, hf, Bool.false_eq_true, if_false]
  rw [add_mod_cases _ 1 _ h1 (by omega)]
  by_cases hc : s.head + 1 < N
  · simp only [hc, if_true, beq_iff_eq]
    split_ifs <;> omega
  · simp only [hc, if_false, beq_iff_eq]
    split_ifs <;> omega

theorem size_write_full (s : CircularBuffer T N) (v : T) (h : Inv s)
    (hf : s.full = true) : (s.write v).2.size = N ∧ (s.write v).2.full = true := by
  obtain ⟨h1, h2, h3⟩ := h
  rw [write_eq s v h1]
  have : s.head = s.tail := h3 hf
  simp [size, hf, this]

theorem size_read (s : CircularBuffer T N) (h : Inv s) (he : s.isEmpty = false) :
    s.read.2.size + 1 = s.size := by
  obtain ⟨h1, h2, h3⟩ := h
  rw [read_eq s he h2]
  have hne : s.full = true ∨ s.head ≠ s.tail := by
    cases hf : s.full with
    | true => exact Or.inl rfl
    | false =>
      right
      intro heq
      simp [isEmpty, hf, heq] at he
  simp only [size, Bool.false_eq_true, if_false]
  rw [add_mod_cases _ 1 _ h2 (by omega)]
  cases hf : s.full with
  | true =>
    have := h3 hf
    simp only [if_true]
    split <;> split <;> omega
  | false =>
    rcases hne with hne | hne
    · rw [hf] at hne; cases hne
    · simp only [Bool.false_eq_true, if_false]
      split_ifs <;> omega

/-! ## The logical sequence -/

theorem logical_isSome (s : CircularBuffer T N) (h : Inv s) : ∃ xs, s.logical = some xs :=
  slots_isSome s.buffer N s.buffer_len s.size s.tail h.2.1

theorem logical_length (s : CircularBuffer T N) (h : Inv s) (xs : List T)
    (hl : s.logical = some xs) : xs.length = s.size :=
  ((slots_eq_some_iff s.buffer N s.size s.tail xs h.2.1).mp hl).1

theorem logical_get (s : CircularBuffer T N) (h : Inv s) (xs : List T)
    (hl : s.logical = some xs) (i : Nat) (hi : i < s.size) :
    s.buffer[(s.tail + i) % N]? = xs[i]? :=
  ((slots_eq_some_iff s.buffer N s.size s.tail xs h.2.1).mp hl).2 i hi

theorem logical_write_not_full (s : CircularBuffer T N) (v : T) (h : Inv s)
    (hf : s.full = false) (xs : List T) (hl : s.logical = some xs) :
    (s.write v).2.logical = some (xs ++ [v]) := by
  have hinv := inv_write s v h
  have hsz := size_write_not_full s v h hf
  have hlen := logical_length s h xs hl
  unfold logical
  apply (slots_eq_some_iff _ N _ _ _ hinv.2.1).mpr
  refine ⟨by simp [hlen, hsz], ?_⟩
  intro i hi
  rw [hsz] at hi
  have ht : (s.write v).2.tail = s.tail := by rw [write_eq s v h.1]; simp [hf]
  have hb : (s.write v).2.buffer = s.buffer.set s.head v := by rw [write_eq s v h.1]
  rw [ht, hb]
  by_cases hlt : i < s.size
  · rw [List.getElem?_set_ne (Ne.symm (tail_add_ne_head s h hf i hlt)),
      logical_get s h xs hl i hlt, List.getElem?_append_left (by omega)]
  · have hi2 : i = xs.length := by omega
    subst hi2
    rw [hlen, tail_add_size s h, List.getElem?_set_self (by rw [s.buffer_len]; exact h.1),
      ← hlen, List.getElem?_concat_length]

theorem logical_write_full (s : CircularBuffer T N) (v : T) (h : Inv s)
    (hf : s.full = true) (xs : List T) (hl : s.logical = some xs) :
    (s.write v).2.logical = some (xs.tail ++ [v]) := by
  have hinv := inv_write s v h
  have hsz := (size_write_full s v h hf).1
  have hlen := logical_length s h xs hl
  have hsN := size_of_full s hf
  have hht : s.head = s.tail := h.2.2 hf
  have hN : 0 < N := by have := h.1; omega
  unfold logical
  apply (slots_eq_some_iff _ N _ _ _ hinv.2.1).mpr
  refine ⟨by simp [hlen, hsz, hsN]; omega, ?_⟩
  intro i hi
  rw [hsz] at hi
  have ht : (s.write v).2.tail = (s.tail + 1) % N := by rw [write_eq s v h.1]; simp [hf]
  have hb : (s.write v).2.buffer = s.buffer.set s.head v := by rw [write_eq s v h.1]
  rw [ht, hb, succ_mod_add]
  by_cases hlt : i + 1 < N
  · have hne : (s.tail + (i + 1)) % N ≠ s.head := by
      rw [hht]
      exact add_mod_ne_self _ _ _ h.2.1 (by omega) hlt
    rw [List.getElem?_set_ne (Ne.symm hne), logical_get s h xs hl (i + 1) (by omega),
      List.getElem?_append_left (by simp [hlen, hsN]; omega), List.getElem?_tail]
  · have hi2 : i + 1 = N := by omega
    rw [hi2, add_mod_self _ _ h.2.1, ← hht,
      List.getElem?_set_self (by rw [s.buffer_len]; exact h.1)]
    have hi3 : i = xs.tail.length := by simp [hlen, hsN]; omega
    rw [hi3, List.getElem?_concat_length]

theorem logical_read (s : CircularBuffer T N) (h : Inv s) (he : s.isEmpty = false)
    (xs : List T) (hl : s.logical = some xs) :
    ∃ x rest, xs = x :: rest ∧ s.read.1 = Except.ok x ∧
      s.buffer[s.tail]? = some x ∧ s.read.2.logical = some rest := by
  have hsz := size_read s h he
  have hlen := logical_length s h xs hl
  have hinv := inv_read s h
  cases xs with
  | nil => simp at hlen; omega
  | cons x rest =>
    have h0 := logical_get s h (x :: rest) hl 0 (by omega)
    simp only [Nat.add_zero, Nat.mod_eq_of_lt h.2.1, List.getElem?_cons_zero] at h0
    refine ⟨x, rest, rfl, ?_, h0, ?_⟩
    · have hlt : s.tail < s.buffer.length := by rw [s.buffer_len]; exact h.2.1
      rw [List.getElem?_eq_getElem hlt] at h0
      simp only [Option.some.injEq] at h0
      rw [read_eq s he h.2.1]
      show Except.ok (s.buffer.get ⟨s.tail, hlt⟩) = Except.ok x
      rw [List.get_eq_getElem]
      exact congrArg Except.ok h0
    · unfold logical
      apply (slots_eq_some_iff _ N _ _ _ hinv.2.1).mpr
      refine ⟨by simp at hlen; omega, ?_⟩
      intro i hi
      have ht : s.read.2.tail = (s.tail + 1) % N := by rw [read_eq s he h.2.1]
      have hb : s.read.2.buffer = s.buffer := by rw [read_eq s he h.2.1]
      rw [ht, hb, succ_mod_add, logical_get s h (x :: rest) hl (i + 1) (by omega),
        List.getElem?_cons_succ]

theorem logical_of_isEmpty (s : CircularBuffer T N) (h : Inv s) (he : s.isEmpty = true) :
    s.logical = some [] := by
  have hz := (isEmpty_iff_size s h).mp he
  unfold logical
  rw [hz]
  rfl

theorem isEmpty_false_of_logical_cons (s : CircularBuffer T N) (h : Inv s) (x : T)
    (rest : List T) (hl : s.logical = some (x :: rest)) : s.isEmpty = false := by
  cases he : s.isEmpty with
  | false => rfl
  | true =>
    rw [logical_of_isEmpty s h he] at hl
    simp at hl

/-! ## Sequences of writes and of reads -/

theorem writeAll_cons (s : CircularBuffer T N) (v : T) (vs : List T) :
    writeAll s (v :: vs) = writeAll (s.write v).2 vs := rfl

theorem writeAll_logical (vs : List T) :
    ∀ (s : CircularBuffer T N) (xs : List T), Inv s → s.logical = some xs →
      Inv (writeAll s vs) ∧
        (writeAll s vs).logical = some ((xs ++ vs).drop (xs.length + vs.length - N)) := by
  induction vs with
  | nil =>
    intro s xs h hl
    have hlen := logical_length s h xs hl
    have hle := size_le s h
    refine ⟨h, ?_⟩
    have hz : xs.length + ([] : List T).length - N = 0 := by simp; omega
    rw [hz]
    simpa [writeAll] using hl
  | cons v rest ih =>
    intro s xs h hl
    have hlen := logical_length s h xs hl
    have hle := size_le s h
    rw [writeAll_cons]
    cases hf : s.full with
    | false =>
      have hw := logical_write_not_full s v h hf xs hl
      obtain ⟨hi, hr⟩ := ih (s.write v).2 (xs ++ [v]) (inv_write s v h) hw
      refine ⟨hi, ?_⟩
      rw [hr]
      have e1 : (xs ++ [v]).length + rest.length - N = xs.length + (v :: rest).length - N := by
        simp; omega
      rw [e1, List.append_assoc]
      rfl
    | true =>
      have hw := logical_write_full s v h hf xs hl
      have hsN := size_of_full s hf
      have hN : 0 < N := by have := h.1; omega
      obtain ⟨hi, hr⟩ := ih (s.write v).2 (xs.tail ++ [v]) (inv_write s v h) hw
      refine ⟨hi, ?_⟩
      rw [hr]
      cases xs with
      | nil => simp at hlen; omega
      | cons x r =>
        have e1 : (List.tail (x :: r) ++ [v]).length + rest.length - N = rest.length := by
          simp at hlen; simp; omega
        have e2 : (x :: r).length + (v :: rest).length - N = rest.length + 1 := by
          simp at hlen; simp; omega
        rw [e1, e2]
        simp

theorem readMany_logical (xs : List T) :
    ∀ (s : CircularBuffer T N), Inv s → s.logical = some xs →
      (readMany xs.length s).1 = xs.map Except.ok ∧
        Inv (readMany xs.length s).2 ∧ (readMany xs.length s).2.isEmpty = true ∧
        (readMany xs.length s).2.head = s.head := by
  induction xs with
  | nil =>
    intro s h hl
    have hlen := logical_length s h [] hl
    refine ⟨rfl, h, ?_, rfl⟩
    exact (isEmpty_iff_size s h).mpr (by simpa using hlen.symm)
  | cons x rest ih =>
    intro s h hl
    have he := isEmpty_false_of_logical_cons s h x rest hl
    obtain ⟨y, ys, hxy, hr1, _, hr2⟩ := logical_read s h he (x :: rest) hl
    simp only [List.cons.injEq] at hxy
    obtain ⟨rfl, rfl⟩ := hxy
    obtain ⟨i1, i2, i3, i4⟩ := ih s.read.2 (inv_read s h) hr2
    have hh : s.read.2.head = s.head := by rw [read_eq s he h.2.1]
    refine ⟨?_, i2, i3, ?_⟩
    · show s.read.1 :: (readMany rest.length s.read.2).1 = _
      rw [i1, hr1]
      rfl
    · show (readMany rest.length s.read.2).2.head = s.head
      rw [i4, hh]

/-! ## The accumulation loop of `average` -/

theorem averageLoop_eq {D : Type} [Add D] (toDouble : T → D) (b : List T) (N : Nat) :
    ∀ (count idx : Nat) (sum : D),
      averageLoop toDouble b N count idx sum =
        match slots b N count idx with
        | none => Except.error Error.outOfBounds
        | some xs => Except.ok (xs.foldl (fun acc x => acc + toDouble x) sum) := by
  intro count
  induction count with
  | zero => intro idx sum; rfl
  | succ n ih =>
    intro idx sum
    simp only [averageLoop, slots]
    cases hb : b[idx]? with
    | none => rfl
    | some x =>
      simp only []
      rw [ih]
      cases hs : slots b N n ((idx + 1) % N) with
      | none => rfl
      | some ys => rfl

theorem average_eq_fold {D : Type} [Zero D] [Add D] [Div D] (toDouble : T → D)
    (ofSize : Nat → D) (s : CircularBuffer T N) (he : s.isEmpty = false) (xs : List T)
    (hl : s.logical = some xs) :
    average toDouble ofSize s =
      Except.ok (xs.foldl (fun acc x => acc + toDouble x) 0 / ofSize s.size) := by
  unfold average
  rw [he, averageLoop_eq]
  unfold logical at hl
  rw [hl]
  simp

theorem writeAll_of_isEmpty (s : CircularBuffer T N) (h : Inv s) (he : s.isEmpty = true)
    (vs : List T) :
    Inv (writeAll s vs) ∧
      (writeAll s vs).logical = some (vs.drop (vs.length - min vs.length N)) ∧
      ((writeAll s vs).isFull = true ↔ N ≤ vs.length) := by
  obtain ⟨hi, hw⟩ := writeAll_logical vs s [] h (logical_of_isEmpty s h he)
  have e : ([] : List T).length + vs.length - N = vs.length - min vs.length N := by
    simp; omega
  rw [e, List.nil_append] at hw
  refine ⟨hi, hw, ?_⟩
  have hlen := logical_length _ hi _ hw
  rw [List.length_drop] at hlen
  show (writeAll s vs).full = true ↔ _
  rw [full_iff_size _ hi, ← hlen]
  have hN : 0 < N := by have := h.1; omega
  omega

/-! ## The claims -/

/-- C1, FIFO law: for a capacity `N ≥ 4`, a reachable empty buffer (its cursors meeting
at any index) and at most `N` values `ws`, writing the values of `ws` in order and then
calling `read()` as many times as there are values makes every read succeed, the `i`-th
read returning the `i`-th value. -/
theorem fifo_law (N : Nat) (hN : 4 ≤ N) (s : CircularBuffer T N) (hr : Reachable s)
    (he : s.isEmpty = true) (ws : List T) (hk : ws.length ≤ N) :
    (readMany ws.length (writeAll s ws)).1 = ws.map Except.ok := by
  have hinv := hr.inv (by omega)
  obtain ⟨hi, hw, _⟩ := writeAll_of_isEmpty s hinv he ws
  have e : ws.length - min ws.length N = 0 := by omega
  rw [e, List.drop_zero] at hw
  exact (readMany_logical ws _ hi hw).1

theorem fifo_law_witness :
    4 ≤ 4 ∧ Reachable drained4 ∧ drained4.isEmpty = true ∧ drained4.head = 2 ∧
      (readMany 4 (writeAll drained4 [7, 8, 9, 10])).1 =
        [Except.ok 7, Except.ok 8, Except.ok 9, Except.ok 10] :=
  ⟨by decide, ⟨[0, 0, 0, 0], rfl, _, rfl⟩, rfl, rfl,
    fifo_law 4 (by decide) drained4 ⟨[0, 0, 0, 0], rfl, _, rfl⟩ rfl [7, 8, 9, 10] (by decide)⟩

/-- C2, overwrite law: for a capacity `N ≥ 4` and any list `vs` of `k` values written
in order into a reachable empty buffer, the logical sequence is the last `min k N`
values of `vs` in their order, and `isFull()` holds exactly when `k ≥ N`; in particular
writing `1, ..., N + 1` leaves the logical sequence `2, ..., N + 1` with `isFull()`. -/
theorem overwrite_law (N : Nat) (hN : 4 ≤ N) (s : CircularBuffer T N) (hr : Reachable s)
    (he : s.isEmpty = true) (vs : List T) (t : CircularBuffer Nat N) (hrt : Reachable t)
    (het : t.isEmpty = true) :
    (writeAll s vs).logical = some (vs.drop (vs.length - min vs.length N)) ∧
      ((writeAll s vs).isFull = true ↔ N ≤ vs.length) ∧
      (writeAll t (List.range' 1 (N + 1))).logical = some (List.range' 2 N) ∧
      (writeAll t (List.range' 1 (N + 1))).isFull = true := by
  obtain ⟨_, h1, h2⟩ := writeAll_of_isEmpty s (hr.inv (by omega)) he vs
  obtain ⟨_, h3, h4⟩ := writeAll_of_isEmpty t (hrt.inv (by omega)) het (List.range' 1 (N + 1))
  refine ⟨h1, h2, ?_, ?_⟩
  · rw [h3]
    have e : (List.range' 1 (N + 1)).length - min (List.range' 1 (N + 1)).length N = 1 := by
      simp
    rw [e, List.range'_succ]
    rfl
  · exact h4.mpr (by simp)

theorem overwrite_law_witness :
    4 ≤ 5 ∧ Reachable cb5 ∧ cb5.isEmpty = true ∧
      (writeAll cb5 [10, 20, 30, 40, 50, 60, 70]).logical = some [30, 40, 50, 60, 70] ∧
      (writeAll (construct [0, 0, 0, 0, 0] rfl : CircularBuffer Nat 5) [1, 2, 3, 4, 5, 6]).logical
        = some [2, 3, 4, 5, 6] :=
  have h := overwrite_law 5 (by decide) cb5 ⟨[0, 0, 0, 0, 0], rfl, [], rfl⟩ rfl
    [10, 20, 30, 40, 50, 60, 70] (construct [0, 0, 0, 0, 0] rfl) ⟨[0, 0, 0, 0, 0], rfl, [], rfl⟩ rfl
  ⟨by decide, ⟨[0, 0, 0, 0, 0], rfl, [], rfl⟩, rfl, h.1, h.2.2.1⟩

/-- C3, size bound: for a capacity `N ≥ 4` and any finite sequence of calls (write, read,
clear and the queries) made on a newly constructed buffer, `0 ≤ size() ≤ N` holds
after every call, that is after every prefix of the sequence. -/
theorem size_bound (N : Nat) (hN : 4 ≤ N) (init : List T) (h : init.length = N)
    (ops : List (Op T)) (k : Nat) :
    0 ≤ (run (construct init h) (ops.take k)).size ∧
      (run (construct init h) (ops.take k)).size ≤ N :=
  ⟨Nat.zero_le _, size_le _ (inv_run _ _ (inv_construct init h (by omega)))⟩

theorem size_bound_witness :
    4 ≤ 4 ∧ [(0 : Int), 0, 0, 0].length = 4 ∧
      0 ≤ (run (construct [(0 : Int), 0, 0, 0] rfl : CircularBuffer Int 4)
        ([Op.write 1, Op.read, Op.read, Op.write 2, Op.query, Op.clear].take 3)).size ∧
      (run (construct [(0 : Int), 0, 0, 0] rfl : CircularBuffer Int 4)
        ([Op.write 1, Op.read, Op.read, Op.write 2, Op.query, Op.clear].take 3)).size ≤ 4 :=
  ⟨by decide, rfl,
    size_bound 4 (by decide) [(0 : Int), 0, 0, 0] rfl
      [Op.write 1, Op.read, Op.read, Op.write 2, Op.query, Op.clear] 3⟩

/-- C4, write step: in a reachable state with logical sequence `xs`, `write(v)` does not
fail; the new logical sequence is `xs ++ [v]` when the buffer was not full and `xs`
without its first element followed by `v` when it was full; the new head is
`(head + 1) % N` and the new full flag is `head == tail` of the new state. -/
theorem write_step (N : Nat) (hN : 4 ≤ N) (s : CircularBuffer T N) (hr : Reachable s)
    (v : T) :
    ∃ xs, s.logical = some xs ∧
      (s.write v).1 = Except.ok () ∧
      (s.isFull = false → (s.write v).2.logical = some (xs ++ [v])) ∧
      (s.isFull = true → xs ≠ [] ∧ (s.write v).2.logical = some (xs.tail ++ [v])) ∧
      (s.write v).2.head = (s.head + 1) % N ∧
      (s.write v).2.full = ((s.write v).2.head == (s.write v).2.tail) := by
  have hinv := hr.inv (by omega)
  obtain ⟨xs, hl⟩ := logical_isSome s hinv
  refine ⟨xs, hl, ?_, ?_, ?_, ?_, ?_⟩
  · rw [write_eq s v hinv.1]
  · intro hf
    exact logical_write_not_full s v hinv hf xs hl
  · intro hf
    refine ⟨?_, logical_write_full s v hinv hf xs hl⟩
    intro hnil
    have hlen := logical_length s hinv xs hl
    rw [size_of_full s hf, hnil] at hlen
    simp at hlen
    omega
  · rw [write_eq s v hinv.1]
  · rw [write_eq s v hinv.1]

theorem write_step_witness :
    4 ≤ 5 ∧ Reachable (writeAll cb5 [1, 2, 3, 4, 5]) ∧
      ∃ xs, (writeAll cb5 [1, 2, 3, 4, 5]).logical = some xs ∧
      ((writeAll cb5 [1, 2, 3, 4, 5]).write 6).1 = Except.ok () ∧
      ((writeAll cb5 [1, 2, 3, 4, 5]).isFull = false →
        ((writeAll cb5 [1, 2, 3, 4, 5]).write 6).2.logical = some (xs ++ [6])) ∧
      ((writeAll cb5 [1, 2, 3, 4, 5]).isFull = true → xs ≠ [] ∧
        ((writeAll cb5 [1, 2, 3, 4, 5]).write 6).2.logical = some (xs.tail ++ [6])) ∧
      ((writeAll cb5 [1, 2, 3, 4, 5]).write 6).2.head = ((writeAll cb5 [1, 2, 3, 4, 5]).head + 1) % 5 ∧
      ((writeAll cb5 [1, 2, 3, 4, 5]).write 6).2.full =
        (((writeAll cb5 [1, 2, 3, 4, 5]).write 6).2.head ==
          ((writeAll cb5 [1, 2, 3, 4, 5]).write 6).2.tail) :=
  ⟨by decide,
    ⟨[0, 0, 0, 0, 0], rfl, [Op.write 1, Op.write 2, Op.write 3, Op.write 4, Op.write 5], rfl⟩,
    write_step 5 (by decide) (writeAll cb5 [1, 2, 3, 4, 5])
      ⟨[0, 0, 0, 0, 0], rfl, [Op.write 1, Op.write 2, Op.write 3, Op.write 4, Op.write 5], rfl⟩ 6⟩

/-- C5, read step: in a reachable non-empty state the logical sequence is some
`x :: rest`, `read()` succeeds and returns `x`, the value stored at index `tail`; the new
logical sequence is `rest`, the new tail is `(tail + 1) % N`, the full flag is false and
`size()` is one less than before. -/
theorem read_step (N : Nat) (hN : 4 ≤ N) (s : CircularBuffer T N) (hr : Reachable s)
    (he : s.isEmpty = false) :
    ∃ x rest, s.logical = some (x :: rest) ∧
      s.read.1 = Except.ok x ∧
      s.buffer[s.tail]? = some x ∧
      s.read.2.logical = some rest ∧
      s.read.2.tail = (s.tail + 1) % N ∧
      s.read.2.full = false ∧
      0 < s.size ∧ s.read.2.size = s.size - 1 := by
  have hinv := hr.inv (by omega)
  obtain ⟨xs, hl⟩ := logical_isSome s hinv
  obtain ⟨x, rest, rfl, h1, h2, h3⟩ := logical_read s hinv he xs hl
  have hsz := size_read s hinv he
  refine ⟨x, rest, hl, h1, h2, h3, ?_, ?_, by omega, by omega⟩
  · rw [read_eq s he hinv.2.1]
  · rw [read_eq s he hinv.2.1]

theorem read_step_witness :
    4 ≤ 5 ∧ Reachable (writeAll cb5 [1, 2, 3, 4, 5, 6]) ∧
      (writeAll cb5 [1, 2, 3, 4, 5, 6]).isEmpty = false ∧
      (writeAll cb5 [1, 2, 3, 4, 5, 6]).read.1 = Except.ok 2 ∧
      (writeAll cb5 [1, 2, 3, 4, 5, 6]).read.2.logical = some [3, 4, 5, 6] :=
  have hr : Reachable (writeAll cb5 [1, 2, 3, 4, 5, 6]) :=
    ⟨[0, 0, 0, 0, 0], rfl,
      [Op.write 1, Op.write 2, Op.write 3, Op.write 4, Op.write 5, Op.write 6], rfl⟩
  have h := read_step 5 (by decide) (writeAll cb5 [1, 2, 3, 4, 5, 6]) hr rfl
  ⟨by decide, hr, rfl, by
    obtain ⟨x, rest, hl, h1, _, h3, _⟩ := h
    have e : (writeAll cb5 [1, 2, 3, 4, 5, 6]).logical = some [2, 3, 4, 5, 6] := by decide
    rw [e] at hl
    simp only [Option.some.injEq, List.cons.injEq] at hl
    obtain ⟨rfl, rfl⟩ := hl
    exact ⟨h1, h3⟩⟩

/-- C6, underflow: in a reachable state `read()` fails with the underflow error exactly
when `isEmpty()` holds and succeeds otherwise; a failing read leaves head, tail, full and
storage as they were; on a newly constructed buffer and on a just-cleared buffer `read()`
fails with the underflow error. -/
theorem read_underflow (N : Nat) (hN : 4 ≤ N) (s : CircularBuffer T N) (hr : Reachable s)
    (init : List T) (h : init.length = N) (u : CircularBuffer T N) :
    (s.read.1 = Except.error Error.underflow ↔ s.isEmpty = true) ∧
      (s.isEmpty = false → ∃ v, s.read.1 = Except.ok v) ∧
      (∀ e, s.read.1 = Except.error e → s.read.2 = s) ∧
      (construct init h).read = (Except.error Error.underflow, construct init h) ∧
      u.clear.read = (Except.error Error.underflow, u.clear) := by
  have hinv := hr.inv (by omega)
  refine ⟨?_, ?_, ?_, read_empty _ rfl, read_empty _ rfl⟩
  · constructor
    · intro hfail
      cases he : s.isEmpty with
      | true => rfl
      | false =>
        rw [read_eq s he hinv.2.1] at hfail
        cases hfail
    · intro he
      rw [read_empty s he]
  · intro he
    rw [read_eq s he hinv.2.1]
    exact ⟨_, rfl⟩
  · intro e hfail
    cases he : s.isEmpty with
    | true => rw [read_empty s he]
    | false =>
      rw [read_eq s he hinv.2.1] at hfail
      cases hfail

theorem read_underflow_witness :
    4 ≤ 4 ∧ Reachable drained4 ∧ [(0 : Int), 0, 0, 0].length = 4 ∧
      (drained4.read.1 = Except.error Error.underflow ↔ drained4.isEmpty = true) ∧
      (drained4.isEmpty = false → ∃ v, drained4.read.1 = Except.ok v) ∧
      (∀ e, drained4.read.1 = Except.error e → drained4.read.2 = drained4) ∧
      (construct [(0 : Int), 0, 0, 0] rfl : CircularBuffer Int 4).read =
        (Except.error Error.underflow, construct [(0 : Int), 0, 0, 0] rfl) ∧
      (writeAll drained4 [5, 6]).clear.read =
        (Except.error Error.underflow, (writeAll drained4 [5, 6]).clear) :=
  ⟨by decide, ⟨[0, 0, 0, 0], rfl, _, rfl⟩, rfl,
    read_underflow 4 (by decide) drained4 ⟨[0, 0, 0, 0], rfl, _, rfl⟩ [(0 : Int), 0, 0, 0] rfl
      (writeAll drained4 [5, 6])⟩

/-- C7, empty average: in a reachable state `average()` fails with the empty-buffer error
exactly when `isEmpty()` holds; otherwise the loop ends with a sum, `size()` is positive
and the result is that sum divided by `size()`; on a newly constructed buffer and on a
just-cleared buffer `average()` fails with the empty-buffer error. -/
theorem average_empty_error {D : Type} [Zero D] [Add D] [Div D] (toDouble : T → D)
    (ofSize : Nat → D) (N : Nat) (hN : 4 ≤ N) (s : CircularBuffer T N) (hr : Reachable s)
    (init : List T) (h : init.length = N) (u : CircularBuffer T N) :
    (average toDouble ofSize s = Except.error Error.emptyBuffer ↔ s.isEmpty = true) ∧
      (s.isEmpty = false → 0 < s.size ∧ ∃ sum,
        averageLoop toDouble s.buffer N s.size s.tail 0 = Except.ok sum ∧
        average toDouble ofSize s = Except.ok (sum / ofSize s.size)) ∧
      average toDouble ofSize (construct init h) = Except.error Error.emptyBuffer ∧
      average toDouble ofSize u.clear = Except.error Error.emptyBuffer := by
  have hinv := hr.inv (by omega)
  obtain ⟨xs, hl⟩ := logical_isSome s hinv
  have hok : s.isEmpty = false → 0 < s.size ∧ ∃ sum,
      averageLoop toDouble s.buffer N s.size s.tail 0 = Except.ok sum ∧
      average toDouble ofSize s = Except.ok (sum / ofSize s.size) := by
    intro he
    constructor
    · have hne : ¬ s.size = 0 := by
        intro hz
        rw [(isEmpty_iff_size s hinv).mpr hz] at he
        cases he
      omega
    · refine ⟨xs.foldl (fun acc x => acc + toDouble x) 0, ?_, average_eq_fold _ _ s he xs hl⟩
      rw [averageLoop_eq]
      unfold logical at hl
      rw [hl]
  refine ⟨?_, hok, ?_, ?_⟩
  · constructor
    · intro hfail
      cases he : s.isEmpty with
      | true => rfl
      | false =>
        obtain ⟨_, sum, _, hav⟩ := hok he
        rw [hav] at hfail
        cases hfail
    · intro he
      unfold average
      rw [he]
      rfl
  · rfl
  · rfl

theorem average_empty_error_witness :
    4 ≤ 5 ∧ Reachable (writeAll cb5 [1, 2, 3]) ∧ [(0 : Int), 0, 0, 0, 0].length = 5 ∧
      (averageInt (writeAll cb5 [1, 2, 3]) = Except.error Error.emptyBuffer ↔
        (writeAll cb5 [1, 2, 3]).isEmpty = true) ∧
      (writeAll cb5 [1, 2, 3]).isEmpty = false ∧
      averageInt cb5 = Except.error Error.emptyBuffer ∧
      averageInt (writeAll cb5 [1, 2, 3]).clear = Except.error Error.emptyBuffer :=
  have hr : Reachable (writeAll cb5 [1, 2, 3]) :=
    ⟨[0, 0, 0, 0, 0], rfl, [Op.write 1, Op.write 2, Op.write 3], rfl⟩
  have h := average_empty_error (fun x : Int => (x : ℚ)) (fun n : Nat => (n : ℚ)) 5 (by decide)
    (writeAll cb5 [1, 2, 3]) hr [(0 : Int), 0, 0, 0, 0] rfl (writeAll cb5 [1, 2, 3])
  ⟨by decide, hr, rfl, h.1, rfl, h.2.2.1, h.2.2.2⟩

/-! ## The arithmetic of `double` on known values -/

theorem double_known_values :
    Double.ofInt 1 / Double.ofInt 3 = Double.finite 6004799503160661 (-54) ∧
      Double.ofInt 2 / Double.ofInt 3 = Double.finite 6004799503160661 (-53) ∧
      Double.ofInt 1 / Double.ofInt 10 = Double.finite 7205759403792794 (-56) ∧
      Double.ofInt (-7) / Double.ofInt 3 = Double.finite (-5254199565265579) (-51) ∧
      Double.ofInt 3 / Double.ofInt 2 = Double.finite 6755399441055744 (-52) ∧
      Double.ofInt 9007199254740993 = Double.finite 4503599627370496 1 ∧
      Double.ofInt 9007199254740995 = Double.finite 4503599627370498 1 ∧
      Double.ofInt 18014398509481983 = Double.finite 4503599627370496 2 ∧
      Double.ofInt 1 / Double.ofInt 10 + Double.ofInt 2 / Double.ofInt 10 =
        Double.finite 5404319552844596 (-54) ∧
      Double.ofInt 0 / Double.ofInt 3 = Double.finite 0 0 ∧
      Double.ofInt 1 / Double.ofInt 0 = Double.notFinite := by
  decide

/-! ## Agreement of the two readings of `double` on the values of the test function -/

theorem averageDouble_test_first (init : List Int) (h : init.length = 5) :
    averageDouble (writeAll (construct init h) [1, 2, 3, 4, 5, 6]) =
        Except.ok (Double.finite 4503599627370496 (-50)) ∧
      (Double.finite 4503599627370496 (-50)).value = some 4 := by
  have hinv : Inv (construct init h) := inv_construct init h (by decide)
  obtain ⟨hi, hl, _⟩ := writeAll_of_isEmpty (construct init h) hinv rfl [1, 2, 3, 4, 5, 6]
  have hl2 : (writeAll (construct init h) [1, 2, 3, 4, 5, 6]).logical = some [2, 3, 4, 5, 6] :=
    hl
  have he := isEmpty_false_of_logical_cons _ hi _ _ hl2
  have hsz := logical_length _ hi _ hl2
  constructor
  · show average Double.ofInt Double.ofNat _ = _
    rw [average_eq_fold _ _ _ he _ hl2, ← hsz]
    rfl
  · simp only [Double.value, Option.some.injEq]
    norm_num

theorem averageDouble_test_second (s : CircularBuffer Int 5) (hi : Inv s)
    (hl : s.logical = some [7, 8, 9, 10]) :
    averageDouble s = Except.ok (Double.finite 4785074604081152 (-49)) ∧
      (Double.finite 4785074604081152 (-49)).value = some 8.5 := by
  have he := isEmpty_false_of_logical_cons _ hi _ _ hl
  have hsz := logical_length _ hi _ hl
  constructor
  · show average Double.ofInt Double.ofNat _ = _
    rw [average_eq_fold _ _ _ he _ hl, ← hsz]
    rfl
  · simp only [Double.value, Option.some.injEq]
    norm_num

/-- C8 as stated fails: after writing 1, 2, 4 into a newly constructed capacity-5 buffer
of `int`, `average()` returns the `double` `5254199565265579 * 2 ^ (-51)`, the one nearest
to 7/3, and not the exact rational `(1 + 2 + 4) / 3`. -/
theorem average_correct_counterexample :
    Reachable (writeAll cb5 [1, 2, 4]) ∧
      (writeAll cb5 [1, 2, 4]).isEmpty = false ∧
      (writeAll cb5 [1, 2, 4]).logical = some [1, 2, 4] ∧
      (writeAll cb5 [1, 2, 4]).size = 3 ∧
      averageDouble (writeAll cb5 [1, 2, 4]) =
        Except.ok (Double.finite 5254199565265579 (-51)) ∧
      (Double.finite 5254199565265579 (-51)).value ≠ some (((1 + 2 + 4 : Int) : ℚ) / 3) := by
  refine ⟨⟨[0, 0, 0, 0, 0], rfl, [Op.write 1, Op.write 2, Op.write 4], rfl⟩, rfl, by decide,
    rfl, rfl, ?_⟩
  simp only [Double.value, ne_eq, Option.some.injEq]
  norm_num

/-- C8 amended: in a reachable non-empty state of a buffer of `int`, `average()` returns
the sum of the elements of the logical sequence, accumulated oldest to newest from index
`tail` starting at `0.0`, divided by `size()`, the additions and the division being those
of `double`, each rounded to the nearest `double`; the result is the same in every
reachable state with the same logical sequence, so slots outside the logical sequence do
not contribute. -/
theorem average_correct (N : Nat) (hN : 4 ≤ N) (s : CircularBuffer Int N) (hr : Reachable s)
    (he : s.isEmpty = false) :
    ∃ xs, s.logical = some xs ∧ xs.length = s.size ∧ 0 < s.size ∧
      averageDouble s =
        Except.ok (xs.foldl (fun (acc : Double) (x : Int) => acc + Double.ofInt x) 0 /
          Double.ofNat s.size) ∧
      ∀ t : CircularBuffer Int N, Reachable t → t.logical = s.logical →
        averageDouble t = averageDouble s := by
  have hinv := hr.inv (by omega)
  obtain ⟨xs, hl⟩ := logical_isSome s hinv
  have hlen := logical_length s hinv xs hl
  have hpos : 0 < s.size := by
    have hne : ¬ s.size = 0 := by
      intro hz
      rw [(isEmpty_iff_size s hinv).mpr hz] at he
      cases he
    omega
  have hav := average_eq_fold Double.ofInt Double.ofNat s he xs hl
  refine ⟨xs, hl, hlen, hpos, hav, ?_⟩
  intro t hrt hlt
  have hinvt := hrt.inv (by omega)
  rw [hl] at hlt
  have hlent := logical_length t hinvt xs hlt
  have het : t.isEmpty = false := by
    cases hte : t.isEmpty with
    | false => rfl
    | true =>
      have := (isEmpty_iff_size t hinvt).mp hte
      omega
  show average Double.ofInt Double.ofNat t = average Double.ofInt Double.ofNat s
  rw [hav, average_eq_fold _ _ t het xs hlt, ← hlent, ← hlen]

theorem average_correct_witness :
    4 ≤ 5 ∧ Reachable (writeAll cb5 [1, 2, 3, 4, 5, 6, 7]).read.2 ∧
      (writeAll cb5 [1, 2, 3, 4, 5, 6, 7]).read.2.isEmpty = false ∧
      (writeAll cb5 [1, 2, 3, 4, 5, 6, 7]).read.2.logical = some [4, 5, 6, 7] ∧
      averageDouble (writeAll cb5 [1, 2, 3, 4, 5, 6, 7]).read.2 =
        Except.ok ((0 + Double.ofInt 4 + Double.ofInt 5 + Double.ofInt 6 + Double.ofInt 7) /
          Double.ofNat 4) ∧
      (0 + Double.ofInt 4 + Double.ofInt 5 + Double.ofInt 6 + Double.ofInt 7) / Double.ofNat 4 =
        Double.finite 6192449487634432 (-50) :=
  have hr : Reachable (writeAll cb5 [1, 2, 3, 4, 5, 6, 7]).read.2 :=
    ⟨[0, 0, 0, 0, 0], rfl, [Op.write 1, Op.write 2, Op.write 3, Op.write 4, Op.write 5,
      Op.write 6, Op.write 7, Op.read], rfl⟩
  have h := average_correct 5 (by decide) (writeAll cb5 [1, 2, 3, 4, 5, 6, 7]).read.2 hr rfl
  ⟨by decide, hr, rfl, by decide, by
    obtain ⟨xs, hl, _, _, h2, _⟩ := h
    have e : (writeAll cb5 [1, 2, 3, 4, 5, 6, 7]).read.2.logical = some [4, 5, 6, 7] := by
      decide
    rw [e] at hl
    simp only [Option.some.injEq] at hl
    subst hl
    exact h2, by decide⟩

/-- C9 as stated fails: after writing 1, 2, 3, 4, 5, 6 into a newly constructed capacity-5
buffer, `average()` returns 4; it is not the case that it equals `(2 + 3 + 4 + 5 + 6) / 5`
with that value equal to 4.4. -/
theorem average_instance_counterexample :
    averageInt (writeAll cb5 [1, 2, 3, 4, 5, 6]) = Except.ok 4 ∧
      ¬ (averageInt (writeAll cb5 [1, 2, 3, 4, 5, 6]) =
            Except.ok (((2 + 3 + 4 + 5 + 6 : Int) : ℚ) / 5) ∧
          ((2 + 3 + 4 + 5 + 6 : Int) : ℚ) / 5 = 4.4) := by
  constructor
  · have hi : Inv (writeAll cb5 [1, 2, 3, 4, 5, 6]) :=
      (writeAll_of_isEmpty cb5 (inv_construct _ rfl (by decide)) rfl [1, 2, 3, 4, 5, 6]).1
    have hl : (writeAll cb5 [1, 2, 3, 4, 5, 6]).logical = some [2, 3, 4, 5, 6] := by decide
    show average (fun x : Int => (x : ℚ)) (fun n : Nat => (n : ℚ)) _ = _
    have he : (writeAll cb5 [1, 2, 3, 4, 5, 6]).isEmpty = false := rfl
    rw [average_eq_fold _ _ _ he _ hl, ← logical_length _ hi _ hl]
    norm_num
  · rintro ⟨_, h⟩
    norm_num at h

/-- C9 amended: after writing 1, 2, 3, 4, 5, 6 in that order into a newly constructed
capacity-5 buffer, whatever its storage held, the logical sequence is `[2, 3, 4, 5, 6]`,
`average()` equals `(2 + 3 + 4 + 5 + 6) / 5`, and that value equals 4. -/
theorem average_instance (init : List Int) (h : init.length = 5) :
    (writeAll (construct init h) [1, 2, 3, 4, 5, 6]).logical = some [2, 3, 4, 5, 6] ∧
      averageInt (writeAll (construct init h) [1, 2, 3, 4, 5, 6]) =
        Except.ok (((2 + 3 + 4 + 5 + 6 : Int) : ℚ) / 5) ∧
      ((2 + 3 + 4 + 5 + 6 : Int) : ℚ) / 5 = 4 := by
  have hinv : Inv (construct init h) := inv_construct init h (by decide)
  obtain ⟨hi, hl, hfull⟩ := writeAll_of_isEmpty (construct init h) hinv rfl [1, 2, 3, 4, 5, 6]
  have hl2 : (writeAll (construct init h) [1, 2, 3, 4, 5, 6]).logical = some [2, 3, 4, 5, 6] :=
    hl
  have he := isEmpty_false_of_logical_cons _ hi _ _ hl2
  have hsz := logical_length _ hi _ hl2
  refine ⟨hl2, ?_, by norm_num⟩
  show average (fun x : Int => (x : ℚ)) (fun n : Nat => (n : ℚ)) _ = _
  rw [average_eq_fold _ _ _ he _ hl2, ← hsz]
  norm_num

theorem average_instance_witness :
    [(0 : Int), 0, 0, 0, 0].length = 5 ∧
      (writeAll cb5 [1, 2, 3, 4, 5, 6]).logical = some [2, 3, 4, 5, 6] ∧
      averageInt (writeAll cb5 [1, 2, 3, 4, 5, 6]) =
        Except.ok (((2 + 3 + 4 + 5 + 6 : Int) : ℚ) / 5) ∧
      ((2 + 3 + 4 + 5 + 6 : Int) : ℚ) / 5 = 4 :=
  ⟨rfl, average_instance [0, 0, 0, 0, 0] rfl⟩

/-- C10, idempotence of clear: for every state `s`, clearing twice gives the same state
(head, tail, full and storage) as clearing once; clearing a reachable empty buffer leaves
`isEmpty()` true and `size()` zero. -/
theorem clear_idempotent (s : CircularBuffer T N) (t : CircularBuffer T N)
    (_hr : Reachable t) (_he : t.isEmpty = true) :
    s.clear.clear = s.clear ∧ t.clear.isEmpty = true ∧ t.clear.size = 0 :=
  ⟨rfl, rfl, rfl⟩

theorem clear_idempotent_witness :
    Reachable drained4 ∧ drained4.isEmpty = true ∧
      (writeAll cb5 [1, 2, 3, 4, 5, 6]).clear.clear = (writeAll cb5 [1, 2, 3, 4, 5, 6]).clear ∧
      drained4.clear.isEmpty = true ∧ drained4.clear.size = 0 ∧ drained4.clear.head = 0 ∧
      drained4.head = 2 :=
  have h := clear_idempotent (writeAll cb5 [1, 2, 3, 4, 5, 6]) (writeAll cb5 [1, 2, 3] |>.clear)
    ⟨[0, 0, 0, 0, 0], rfl, [Op.write 1, Op.write 2, Op.write 3, Op.clear], rfl⟩ rfl
  have h4 := clear_idempotent drained4 drained4 ⟨[0, 0, 0, 0], rfl, _, rfl⟩ rfl
  ⟨⟨[0, 0, 0, 0], rfl, _, rfl⟩, rfl, h.1, h4.2.1, h4.2.2, rfl, rfl⟩

/-! ## The rendering loop and the loop index -/

theorem renderLoop_eq (fmt : T → String) (b : List T) (N : Nat) :
    ∀ (count idx : Nat) (out : String),
      renderLoop fmt b N count idx out =
        match slots b N count idx with
        | none => Except.error Error.outOfBounds
        | some xs => Except.ok (xs.foldl (fun acc x => acc ++ fmt x ++ " ") out) := by
  intro count
  induction count with
  | zero => intro idx out; rfl
  | succ n ih =>
    intro idx out
    simp only [renderLoop, slots]
    cases hb : b[idx]? with
    | none => rfl
    | some x =>
      simp only []
      rw [ih]
      cases hs : slots b N n ((idx + 1) % N) with
      | none => rfl
      | some ys => rfl

theorem foldl_append_init (l : List String) :
    ∀ a : String, l.foldl (fun r t => r ++ t) a = a ++ l.foldl (fun r t => r ++ t) "" := by
  induction l with
  | nil => intro a; simp
  | cons x rest ih =>
    intro a
    rw [List.foldl_cons, List.foldl_cons, ih (a ++ x), ih ("" ++ x), String.empty_append,
      String.append_assoc]

theorem join_cons (x : String) (l : List String) : String.join (x :: l) = x ++ String.join l := by
  unfold String.join
  rw [List.foldl_cons, foldl_append_init, String.empty_append]

theorem foldl_render (fmt : T → String) (xs : List T) :
    ∀ out : String, xs.foldl (fun acc x => acc ++ fmt x ++ " ") out =
      out ++ String.join (xs.map (fun x => fmt x ++ " ")) := by
  induction xs with
  | nil => intro out; simp [String.join]
  | cons x rest ih =>
    intro out
    rw [List.foldl_cons, ih, List.map_cons, join_cons, String.append_assoc,
      String.append_assoc, String.append_assoc]

theorem render_eq (fmt : T → String) (s : CircularBuffer T N) (he : s.isEmpty = false)
    (xs : List T) (hl : s.logical = some xs) :
    render fmt s = Except.ok (String.join (xs.map (fun x => fmt x ++ " "))) := by
  unfold render
  rw [he, renderLoop_eq]
  unfold logical at hl
  rw [hl]
  simp only [Bool.false_eq_true, if_false]
  rw [foldl_render, String.empty_append]

theorem loopIndex_eq (N : Nat) :
    ∀ (count idx : Nat), idx < N → loopIndex N count idx = (idx + count) % N := by
  intro count
  induction count with
  | zero =>
    intro idx h
    simp [loopIndex, Nat.mod_eq_of_lt h]
  | succ n ih =>
    intro idx h
    simp only [loopIndex]
    rw [ih _ (succ_mod_lt idx N (by omega)), succ_mod_add]

theorem intercalate_go_append (sep : String) (l : List String) :
    ∀ acc : String, String.intercalate.go acc sep l ++ sep =
      acc ++ sep ++ String.join (l.map (fun a => a ++ sep)) := by
  induction l with
  | nil => intro acc; simp [String.intercalate.go, String.join]
  | cons a rest ih =>
    intro acc
    rw [String.intercalate.go, ih, List.map_cons, join_cons]
    simp only [String.append_assoc]

theorem join_eq_intercalate (sep : String) (a : String) (l : List String) :
    String.join ((a :: l).map (fun b => b ++ sep)) = String.intercalate sep (a :: l) ++ sep := by
  rw [String.intercalate, intercalate_go_append, List.map_cons, join_cons]

/-- C11, clear: for every state, whatever its cursors, flag and contents, `clear()`
returns normally with `head == 0`, `tail == 0` and `full == false`, hence `size() == 0`
and `isEmpty()`, and every storage slot holds the value it held before the call. -/
theorem clear_post_frame (s : CircularBuffer T N) :
    s.clear.head = 0 ∧ s.clear.tail = 0 ∧ s.clear.full = false ∧
      s.clear.size = 0 ∧ s.clear.isEmpty = true ∧
      s.clear.buffer = s.buffer ∧ ∀ i : Nat, s.clear.buffer[i]? = s.buffer[i]? :=
  ⟨rfl, rfl, rfl, rfl, rfl, rfl, fun _ => rfl⟩

/-- C12, full and empty: in every reachable state of a buffer of capacity `N ≥ 4`,
`full` implies `head == tail`, `isFull()` holds exactly when `size() == N`, `isEmpty()`
holds exactly when `size() == 0`, and `isFull()` and `isEmpty()` are not both true. -/
theorem full_empty_consistency (N : Nat) (hN : 4 ≤ N) (s : CircularBuffer T N)
    (hr : Reachable s) :
    (s.full = true → s.head = s.tail) ∧
      (s.isFull = true ↔ s.size = N) ∧
      (s.isEmpty = true ↔ s.size = 0) ∧
      (s.isEmpty = true ↔ (s.full = false ∧ s.head = s.tail)) ∧
      ¬ (s.isFull = true ∧ s.isEmpty = true) := by
  have hinv := hr.inv (by omega)
  refine ⟨hinv.2.2, full_iff_size s hinv, isEmpty_iff_size s hinv, ?_, ?_⟩
  · simp [isEmpty]
  · rintro ⟨h1, h2⟩
    have e1 := (full_iff_size s hinv).mp h1
    have e2 := (isEmpty_iff_size s hinv).mp h2
    omega

theorem full_empty_consistency_witness :
    4 ≤ 5 ∧ Reachable (writeAll cb5 [1, 2, 3, 4, 5, 6]) ∧
      ((writeAll cb5 [1, 2, 3, 4, 5, 6]).isFull = true ↔
        (writeAll cb5 [1, 2, 3, 4, 5, 6]).size = 5) ∧
      (writeAll cb5 [1, 2, 3, 4, 5, 6]).size = 5 ∧
      (writeAll cb5 [1, 2, 3, 4, 5, 6]).head = 1 ∧
      ¬ ((writeAll cb5 [1, 2, 3, 4, 5, 6]).isFull = true ∧
        (writeAll cb5 [1, 2, 3, 4, 5, 6]).isEmpty = true) :=
  have hr : Reachable (writeAll cb5 [1, 2, 3, 4, 5, 6]) :=
    ⟨[0, 0, 0, 0, 0], rfl,
      [Op.write 1, Op.write 2, Op.write 3, Op.write 4, Op.write 5, Op.write 6], rfl⟩
  have h := full_empty_consistency 5 (by decide) (writeAll cb5 [1, 2, 3, 4, 5, 6]) hr
  ⟨by decide, hr, h.2.1, rfl, rfl, h.2.2.2.2⟩

/-- C13, index invariant: for a capacity `N ≥ 4`, in every reachable state
`0 ≤ head < N` and `0 ≤ tail < N`, and no storage access of `write`, `read`, `average` or
the string rendering is out of the bounds of the `N` slots. -/
theorem index_invariant {D : Type} [Zero D] [Add D] [Div D] (toDouble : T → D)
    (ofSize : Nat → D) (fmt : T → String) (N : Nat) (hN : 4 ≤ N) (s : CircularBuffer T N)
    (hr : Reachable s) :
    (0 ≤ s.head ∧ s.head < N) ∧ (0 ≤ s.tail ∧ s.tail < N) ∧
      s.head < s.buffer.length ∧ s.tail < s.buffer.length ∧
      (∀ v, (s.write v).1 = Except.ok ()) ∧
      s.read.1 ≠ Except.error Error.outOfBounds ∧
      average toDouble ofSize s ≠ Except.error Error.outOfBounds ∧
      render fmt s ≠ Except.error Error.outOfBounds := by
  have hinv := hr.inv (by omega)
  obtain ⟨xs, hl⟩ := logical_isSome s hinv
  refine ⟨⟨Nat.zero_le _, hinv.1⟩, ⟨Nat.zero_le _, hinv.2.1⟩, ?_, ?_, ?_, ?_, ?_, ?_⟩
  · rw [s.buffer_len]; exact hinv.1
  · rw [s.buffer_len]; exact hinv.2.1
  · intro v
    rw [write_eq s v hinv.1]
  · cases he : s.isEmpty with
    | true =>
      rw [read_empty s he]
      intro h
      cases h
    | false =>
      rw [read_eq s he hinv.2.1]
      intro h
      cases h
  · cases he : s.isEmpty with
    | true =>
      unfold average
      rw [he]
      intro h
      cases h
    | false =>
      rw [average_eq_fold _ _ s he xs hl]
      intro h
      cases h
  · cases he : s.isEmpty with
    | true =>
      unfold render
      rw [he]
      intro h
      cases h
    | false =>
      rw [render_eq fmt s he xs hl]
      intro h
      cases h

theorem index_invariant_witness :
    4 ≤ 5 ∧ Reachable (writeAll cb5 [1, 2, 3, 4, 5, 6, 7]) ∧
      (writeAll cb5 [1, 2, 3, 4, 5, 6, 7]).head = 2 ∧
      (writeAll cb5 [1, 2, 3, 4, 5, 6, 7]).tail = 2 ∧
      (∀ v, ((writeAll cb5 [1, 2, 3, 4, 5, 6, 7]).write v).1 = Except.ok ()) ∧
      (writeAll cb5 [1, 2, 3, 4, 5, 6, 7]).read.1 ≠ Except.error Error.outOfBounds ∧
      averageInt (writeAll cb5 [1, 2, 3, 4, 5, 6, 7]) ≠ Except.error Error.outOfBounds ∧
      render fmtInt (writeAll cb5 [1, 2, 3, 4, 5, 6, 7]) ≠ Except.error Error.outOfBounds :=
  have hr : Reachable (writeAll cb5 [1, 2, 3, 4, 5, 6, 7]) :=
    ⟨[0, 0, 0, 0, 0], rfl, [Op.write 1, Op.write 2, Op.write 3, Op.write 4, Op.write 5,
      Op.write 6, Op.write 7], rfl⟩
  have h := index_invariant (fun x : Int => (x : ℚ)) (fun n : Nat => (n : ℚ)) fmtInt 5
    (by decide) (writeAll cb5 [1, 2, 3, 4, 5, 6, 7]) hr
  ⟨by decide, hr, rfl, rfl, h.2.2.2.2.1, h.2.2.2.2.2.1, h.2.2.2.2.2.2.1, h.2.2.2.2.2.2.2⟩

/-- C14, round trip on a newly constructed capacity-5 buffer of integers: after writing
1, 2, 3, 4, `size() == 4` and `isFull()` is false; after then writing 5, 6, `size() == 5`,
`isFull()` is true and the logical sequence is `[2, 3, 4, 5, 6]`; after `clear()`,
`size() == 0` and `isEmpty()` is true; after then writing 7, 8, 9, 10, the logical sequence
is `[7, 8, 9, 10]` and `average()` is 8.5. -/
theorem round_trip (init : List Int) (h : init.length = 5) :
    (writeAll (construct init h : CircularBuffer Int 5) [1, 2, 3, 4]).size = 4 ∧
      (writeAll (construct init h : CircularBuffer Int 5) [1, 2, 3, 4]).isFull = false ∧
      (writeAll (writeAll (construct init h : CircularBuffer Int 5) [1, 2, 3, 4]) [5, 6]).size = 5 ∧
      (writeAll (writeAll (construct init h : CircularBuffer Int 5) [1, 2, 3, 4]) [5, 6]).isFull
        = true ∧
      (writeAll (writeAll (construct init h : CircularBuffer Int 5) [1, 2, 3, 4]) [5, 6]).logical
        = some [2, 3, 4, 5, 6] ∧
      (writeAll (writeAll (construct init h : CircularBuffer Int 5) [1, 2, 3, 4])
        [5, 6]).clear.size = 0 ∧
      (writeAll (writeAll (construct init h : CircularBuffer Int 5) [1, 2, 3, 4])
        [5, 6]).clear.isEmpty = true ∧
      (writeAll (writeAll (writeAll (construct init h : CircularBuffer Int 5) [1, 2, 3, 4])
        [5, 6]).clear [7, 8, 9, 10]).logical = some [7, 8, 9, 10] ∧
      averageInt (writeAll (writeAll (writeAll (construct init h : CircularBuffer Int 5)
        [1, 2, 3, 4]) [5, 6]).clear [7, 8, 9, 10]) = Except.ok 8.5 := by
  have hc : Inv (construct init h : CircularBuffer Int 5) := inv_construct init h (by decide)
  obtain ⟨i1, l1, f1⟩ := writeAll_of_isEmpty (construct init h) hc rfl [1, 2, 3, 4]
  have l1a : (writeAll (construct init h : CircularBuffer Int 5) [1, 2, 3, 4]).logical
      = some [1, 2, 3, 4] := l1
  have z1 := logical_length _ i1 _ l1a
  obtain ⟨i2, l2⟩ := writeAll_logical [5, 6] _ [1, 2, 3, 4] i1 l1a
  have l2a : (writeAll (writeAll (construct init h : CircularBuffer Int 5) [1, 2, 3, 4])
      [5, 6]).logical = some [2, 3, 4, 5, 6] := l2
  have z2 := logical_length _ i2 _ l2a
  have i3 := inv_clear (writeAll (writeAll (construct init h : CircularBuffer Int 5)
    [1, 2, 3, 4]) [5, 6]) (by decide)
  obtain ⟨i4, l4, _⟩ := writeAll_of_isEmpty _ i3 rfl [7, 8, 9, 10]
  have l4a : (writeAll (writeAll (writeAll (construct init h : CircularBuffer Int 5)
      [1, 2, 3, 4]) [5, 6]).clear [7, 8, 9, 10]).logical = some [7, 8, 9, 10] := l4
  have z4 := logical_length _ i4 _ l4a
  have e4 := isEmpty_false_of_logical_cons _ i4 _ _ l4a
  refine ⟨z1.symm, ?_, z2.symm, (full_iff_size _ i2).mpr z2.symm, l2a, rfl, rfl, l4a, ?_⟩
  · cases hf : (writeAll (construct init h : CircularBuffer Int 5) [1, 2, 3, 4]).isFull with
    | false => rfl
    | true =>
      have := f1.mp hf
      simp at this
  · show average (fun x : Int => (x : ℚ)) (fun n : Nat => (n : ℚ)) _ = _
    rw [average_eq_fold _ _ _ e4 _ l4a, ← z4]
    norm_num

theorem round_trip_witness :
    [(0 : Int), 0, 0, 0, 0].length = 5 ∧
      (writeAll cb5 [1, 2, 3, 4]).size = 4 ∧
      (writeAll (writeAll cb5 [1, 2, 3, 4]) [5, 6]).logical = some [2, 3, 4, 5, 6] ∧
      (writeAll (writeAll (writeAll cb5 [1, 2, 3, 4]) [5, 6]).clear [7, 8, 9, 10]).logical
        = some [7, 8, 9, 10] ∧
      averageInt (writeAll (writeAll (writeAll cb5 [1, 2, 3, 4]) [5, 6]).clear [7, 8, 9, 10])
        = Except.ok 8.5 :=
  have h := round_trip [0, 0, 0, 0, 0] rfl
  ⟨rfl, h.1, h.2.2.2.2.1, h.2.2.2.2.2.2.2.1, h.2.2.2.2.2.2.2.2⟩

/-- C15 as stated fails: on the buffer holding 2, 3, 4, 5, 6 the rendered text is
"2 3 4 5 6 ", ending in a space, which is not the renderings joined with one space between
consecutive elements. -/
theorem render_counterexample :
    (writeAll cb5 [1, 2, 3, 4, 5, 6]).isEmpty = false ∧
      (writeAll cb5 [1, 2, 3, 4, 5, 6]).logical = some [2, 3, 4, 5, 6] ∧
      render fmtInt (writeAll cb5 [1, 2, 3, 4, 5, 6]) = Except.ok "2 3 4 5 6 " ∧
      render fmtInt (writeAll cb5 [1, 2, 3, 4, 5, 6]) ≠
        Except.ok (String.intercalate " " ([2, 3, 4, 5, 6].map fmtInt)) := by
  refine ⟨rfl, by decide, rfl, ?_⟩
  have e : render fmtInt (writeAll cb5 [1, 2, 3, 4, 5, 6]) = Except.ok "2 3 4 5 6 " := rfl
  rw [e]
  intro h
  exact absurd (Except.ok.inj h) (by decide)

/-- C15 amended: in a reachable state the rendered text is "Buffer is empty" when
`isEmpty()` holds; otherwise it is the renderings of the elements of the logical sequence,
oldest first, each followed by exactly one space, that is the renderings joined with one
space between consecutive elements and followed by one more space; rendering leaves the
buffer state as it is. -/
theorem render_spec (fmt : T → String) (N : Nat) (hN : 4 ≤ N) (s : CircularBuffer T N)
    (hr : Reachable s) :
    (s.isEmpty = true → render fmt s = Except.ok "Buffer is empty") ∧
      (s.isEmpty = false → ∃ x rest, s.logical = some (x :: rest) ∧
        render fmt s = Except.ok ((x :: rest).foldl (fun acc y => acc ++ fmt y ++ " ") "") ∧
        render fmt s = Except.ok (String.intercalate " " ((x :: rest).map fmt) ++ " ")) ∧
      step s Op.query = s := by
  have hinv := hr.inv (by omega)
  refine ⟨?_, ?_, rfl⟩
  · intro he
    unfold render
    rw [he]
    rfl
  · intro he
    obtain ⟨xs, hl⟩ := logical_isSome s hinv
    obtain ⟨x, rest, rfl, _⟩ := logical_read s hinv he xs hl
    refine ⟨x, rest, hl, ?_, ?_⟩
    · rw [render_eq fmt s he _ hl, foldl_render, String.empty_append]
    · have e : String.intercalate " " ((x :: rest).map fmt) ++ " " =
          String.join ((x :: rest).map (fun y => fmt y ++ " ")) := by
        rw [List.map_cons, ← join_eq_intercalate, ← List.map_cons, List.map_map]
        rfl
      rw [render_eq fmt s he _ hl, e]

theorem render_spec_witness :
    4 ≤ 5 ∧ Reachable (writeAll cb5 [1, 2, 3, 4, 5, 6]) ∧
      (cb5.isEmpty = true → render fmtInt cb5 = Except.ok "Buffer is empty") ∧
      render fmtInt (writeAll cb5 [1, 2, 3, 4, 5, 6]) = Except.ok "2 3 4 5 6 " ∧
      step (writeAll cb5 [1, 2, 3, 4, 5, 6]) Op.query = writeAll cb5 [1, 2, 3, 4, 5, 6] :=
  have hr : Reachable (writeAll cb5 [1, 2, 3, 4, 5, 6]) :=
    ⟨[0, 0, 0, 0, 0], rfl,
      [Op.write 1, Op.write 2, Op.write 3, Op.write 4, Op.write 5, Op.write 6], rfl⟩
  have h := render_spec fmtInt 5 (by decide) (writeAll cb5 [1, 2, 3, 4, 5, 6]) hr
  have h0 := render_spec fmtInt 5 (by decide) cb5 ⟨[0, 0, 0, 0, 0], rfl, [], rfl⟩
  ⟨by decide, hr, h0.1, rfl, h.2.2⟩

/-- C16, transitions: for a capacity `N ≥ 4` and a reachable state, a write never yields
an empty buffer; a write to an empty buffer yields a buffer with `size() == 1` that is
neither empty nor full; a write to a full buffer yields a full buffer; a successful read
never yields a full buffer; `clear()` yields an empty buffer. -/
theorem state_transitions (N : Nat) (hN : 4 ≤ N) (s : CircularBuffer T N) (hr : Reachable s)
    (v : T) :
    (s.write v).2.isEmpty = false ∧
      (s.isEmpty = true → (s.write v).2.size = 1 ∧ (s.write v).2.isEmpty = false ∧
        (s.write v).2.isFull = false) ∧
      (s.isFull = true → (s.write v).2.isFull = true ∧ (s.write v).2.size = N) ∧
      (s.isEmpty = false → (∃ x, s.read.1 = Except.ok x) ∧ s.read.2.isFull = false) ∧
      s.clear.isEmpty = true := by
  have hinv := hr.inv (by omega)
  have hinvw := inv_write s v hinv
  have hne : (s.write v).2.isEmpty = false := by
    cases he : (s.write v).2.isEmpty with
    | false => rfl
    | true =>
      have hz := (isEmpty_iff_size _ hinvw).mp he
      cases hf : s.full with
      | false =>
        have := size_write_not_full s v hinv hf
        omega
      | true =>
        have := (size_write_full s v hinv hf).1
        omega
  refine ⟨hne, ?_, ?_, ?_, rfl⟩
  · intro he
    have hz := (isEmpty_iff_size s hinv).mp he
    have hf : s.full = false := by
      cases hf : s.full with
      | false => rfl
      | true =>
        have := size_of_full s hf
        omega
    have h1 := size_write_not_full s v hinv hf
    refine ⟨by omega, hne, ?_⟩
    cases hfw : (s.write v).2.isFull with
    | false => rfl
    | true =>
      have := (full_iff_size _ hinvw).mp hfw
      omega
  · intro hf
    exact ⟨(size_write_full s v hinv hf).2, (size_write_full s v hinv hf).1⟩
  · intro he
    rw [read_eq s he hinv.2.1]
    exact ⟨⟨_, rfl⟩, rfl⟩

theorem state_transitions_witness :
    4 ≤ 4 ∧ Reachable drained4 ∧ drained4.isEmpty = true ∧
      (drained4.write 9).2.size = 1 ∧ (drained4.write 9).2.isEmpty = false ∧
      (drained4.write 9).2.isFull = false ∧ drained4.clear.isEmpty = true :=
  have h := state_transitions 4 (by decide) drained4 ⟨[0, 0, 0, 0], rfl, _, rfl⟩ 9
  ⟨by decide, ⟨[0, 0, 0, 0], rfl, _, rfl⟩, rfl, (h.2.1 rfl).1, (h.2.1 rfl).2.1,
    (h.2.1 rfl).2.2, h.2.2.2.2⟩

/-- C17, cursors and size: in every reachable state of a buffer of capacity `N ≥ 4`,
`(tail + size()) % N == head`; the index of the traversal of `average()` and of the
rendering, which starts at `tail` and is advanced `size()` times modulo `N`, ends at
`head`. -/
theorem cursor_size_invariant (N : Nat) (hN : 4 ≤ N) (s : CircularBuffer T N)
    (hr : Reachable s) :
    (s.tail + s.size) % N = s.head ∧ loopIndex N s.size s.tail = s.head := by
  have hinv := hr.inv (by omega)
  refine ⟨tail_add_size s hinv, ?_⟩
  rw [loopIndex_eq N s.size s.tail hinv.2.1]
  exact tail_add_size s hinv

theorem cursor_size_invariant_witness :
    4 ≤ 5 ∧ Reachable (writeAll cb5 [1, 2, 3, 4, 5, 6, 7]).read.2 ∧
      (writeAll cb5 [1, 2, 3, 4, 5, 6, 7]).read.2.tail = 3 ∧
      (writeAll cb5 [1, 2, 3, 4, 5, 6, 7]).read.2.size = 4 ∧
      (writeAll cb5 [1, 2, 3, 4, 5, 6, 7]).read.2.head = 2 ∧
      ((writeAll cb5 [1, 2, 3, 4, 5, 6, 7]).read.2.tail +
        (writeAll cb5 [1, 2, 3, 4, 5, 6, 7]).read.2.size) % 5 =
        (writeAll cb5 [1, 2, 3, 4, 5, 6, 7]).read.2.head ∧
      loopIndex 5 (writeAll cb5 [1, 2, 3, 4, 5, 6, 7]).read.2.size
        (writeAll cb5 [1, 2, 3, 4, 5, 6, 7]).read.2.tail =
        (writeAll cb5 [1, 2, 3, 4, 5, 6, 7]).read.2.head :=
  have hr : Reachable (writeAll cb5 [1, 2, 3, 4, 5, 6, 7]).read.2 :=
    ⟨[0, 0, 0, 0, 0], rfl, [Op.write 1, Op.write 2, Op.write 3, Op.write 4, Op.write 5,
      Op.write 6, Op.write 7, Op.read], rfl⟩
  ⟨by decide, hr, rfl, rfl, rfl,
    cursor_size_invariant 5 (by decide) (writeAll cb5 [1, 2, 3, 4, 5, 6, 7]).read.2 hr⟩

/-- C18, drain law: in a reachable state with logical sequence `xs`, full or wrapping
around the end of the storage or not, calling `read()` `size()` times succeeds every time
and returns the elements of `xs` in order, leaves the buffer with `isEmpty()` true and
`head` unchanged, and one further `read()` fails. -/
theorem drain_law (N : Nat) (hN : 4 ≤ N) (s : CircularBuffer T N) (hr : Reachable s) :
    ∃ xs, s.logical = some xs ∧ xs.length = s.size ∧
      (readMany s.size s).1 = xs.map Except.ok ∧
      (readMany s.size s).2.isEmpty = true ∧
      (readMany s.size s).2.head = s.head ∧
      (readMany s.size s).2.read =
        (Except.error Error.underflow, (readMany s.size s).2) := by
  have hinv := hr.inv (by omega)
  obtain ⟨xs, hl⟩ := logical_isSome s hinv
  have hlen := logical_length s hinv xs hl
  obtain ⟨h1, _, h3, h4⟩ := readMany_logical xs s hinv hl
  rw [hlen] at h1 h3 h4
  exact ⟨xs, hl, hlen, h1, h3, h4, read_empty _ h3⟩

theorem drain_law_witness :
    4 ≤ 5 ∧ Reachable (writeAll cb5 [1, 2, 3, 4, 5, 6, 7]) ∧
      (writeAll cb5 [1, 2, 3, 4, 5, 6, 7]).isFull = true ∧
      (writeAll cb5 [1, 2, 3, 4, 5, 6, 7]).size = 5 ∧
      (readMany 5 (writeAll cb5 [1, 2, 3, 4, 5, 6, 7])).1 =
        [Except.ok 3, Except.ok 4, Except.ok 5, Except.ok 6, Except.ok 7] ∧
      (readMany 5 (writeAll cb5 [1, 2, 3, 4, 5, 6, 7])).2.isEmpty = true :=
  have hr : Reachable (writeAll cb5 [1, 2, 3, 4, 5, 6, 7]) :=
    ⟨[0, 0, 0, 0, 0], rfl, [Op.write 1, Op.write 2, Op.write 3, Op.write 4, Op.write 5,
      Op.write 6, Op.write 7], rfl⟩
  have h := drain_law 5 (by decide) (writeAll cb5 [1, 2, 3, 4, 5, 6, 7]) hr
  ⟨by decide, hr, rfl, rfl, by
    obtain ⟨xs, hl, _, h1, h3, _⟩ := h
    have e : (writeAll cb5 [1, 2, 3, 4, 5, 6, 7]).logical = some [3, 4, 5, 6, 7] := by decide
    rw [e] at hl
    simp only [Option.some.injEq] at hl
    subst hl
    exact ⟨h1, h3⟩⟩

/-- C19, storage frame: in a reachable state `write(v)` stores `v` in the slot at the old
head index and leaves every other slot as it was; a successful `read()` changes no slot
and leaves `head` as it was. -/
theorem storage_frame (N : Nat) (hN : 4 ≤ N) (s : CircularBuffer T N) (hr : Reachable s)
    (v : T) :
    (s.write v).2.buffer[s.head]? = some v ∧
      (∀ i : Nat, i ≠ s.head → (s.write v).2.buffer[i]? = s.buffer[i]?) ∧
      (s.write v).2.buffer = s.buffer.set s.head v ∧
      (s.isEmpty = false → (∃ x, s.read.1 = Except.ok x) ∧
        s.read.2.buffer = s.buffer ∧ s.read.2.head = s.head) := by
  have hinv := hr.inv (by omega)
  have hb : (s.write v).2.buffer = s.buffer.set s.head v := by rw [write_eq s v hinv.1]
  refine ⟨?_, ?_, hb, ?_⟩
  · rw [hb, List.getElem?_set_self (by rw [s.buffer_len]; exact hinv.1)]
  · intro i hi
    rw [hb, List.getElem?_set_ne (Ne.symm hi)]
  · intro he
    rw [read_eq s he hinv.2.1]
    exact ⟨⟨_, rfl⟩, rfl, rfl⟩

theorem storage_frame_witness :
    4 ≤ 5 ∧ Reachable (writeAll cb5 [1, 2, 3, 4, 5, 6, 7]) ∧
      (writeAll cb5 [1, 2, 3, 4, 5, 6, 7]).buffer = [6, 7, 3, 4, 5] ∧
      (writeAll cb5 [1, 2, 3, 4, 5, 6, 7]).head = 2 ∧
      ((writeAll cb5 [1, 2, 3, 4, 5, 6, 7]).write 8).2.buffer =
        (writeAll cb5 [1, 2, 3, 4, 5, 6, 7]).buffer.set
          (writeAll cb5 [1, 2, 3, 4, 5, 6, 7]).head 8 ∧
      ((writeAll cb5 [1, 2, 3, 4, 5, 6, 7]).write 8).2.buffer = [6, 7, 8, 4, 5] :=
  have hr : Reachable (writeAll cb5 [1, 2, 3, 4, 5, 6, 7]) :=
    ⟨[0, 0, 0, 0, 0], rfl, [Op.write 1, Op.write 2, Op.write 3, Op.write 4, Op.write 5,
      Op.write 6, Op.write 7], rfl⟩
  have h := storage_frame 5 (by decide) (writeAll cb5 [1, 2, 3, 4, 5, 6, 7]) hr 8
  ⟨by decide, hr, rfl, rfl, h.2.2.1, rfl⟩

end CircularBuffer
